import Mathlib

/-!
# Verification of the kb-app knowledge-store core

Shallow embedding of the kb-app TypeScript repository (text chunker,
transcript / distribution-list parsers, vector-store backends, ingestion
orchestrators, sync-state tracker) together with proofs settling the
frozen behavioural claims about it.

Modelling conventions:
* JavaScript strings are modelled as `List Char`.
* JavaScript numbers that the code only ever uses as non-negative integers
  (offsets, lengths, millisecond timestamps) are modelled as `Nat`; epoch
  timestamps that are subtracted from are modelled as `Int`; similarity
  scores are modelled as `Rat`.
* `x || default` on numbers / strings (JS falsiness of `0` / `""`) is
  modelled explicitly by `jsOrNat` / `jsOrStr` / `truthy`.
* Code that can `throw` is modelled with `Except`.
* The `while` loop of the chunker is modelled with explicit fuel; the
  termination claim is the statement that fuel `text.length` never runs out.
-/

namespace KB

/-- JS whitespace test (`\s`, `String.prototype.trim`) restricted to the
whitespace characters that actually occur in the ingested ASCII text. -/
def isSpace (c : Char) : Bool :=
  c = ' ' || c = '\t' || c = '\n' || c = '\r'

/-- Embeds `String.prototype.trim`: drop whitespace from both ends. -/
def trim (l : List Char) : List Char :=
  ((l.dropWhile isSpace).reverse.dropWhile isSpace).reverse

/-- JS `x || d` for an optional numeric field (`undefined` and `0` are falsy). -/
def jsOrNat (x : Option Nat) (d : Nat) : Nat :=
  match x with
  | none => d
  | some 0 => d
  | some n => n

/-- JS `s || d` for a string value (`""` is falsy). -/
def jsOrStrVal (s d : List Char) : List Char :=
  if s = [] then d else s

/-- JS `s || d` for an optional string field (`undefined` and `""` are falsy). -/
def jsOrStr (s : Option (List Char)) (d : List Char) : List Char :=
  match s with
  | none => d
  | some v => jsOrStrVal v d

/-- JS truthiness of an optional string field. -/
def truthy (s : Option (List Char)) : Bool :=
  match s with
  | none => false
  | some v => !v.isEmpty

/-! ## Text chunker (`src/parsers/text_chunker.ts`) -/

/-- Embeds `ChunkOptions` of `text_chunker.ts`. -/
structure ChunkOptions where
  chunk_size : Option Nat := none
  chunk_overlap : Option Nat := none

/-- Embeds `TextChunk` of `text_chunker.ts`. -/
structure TextChunk where
  text : List Char
  index : Nat
  start_char : Nat
  end_char : Nat
deriving DecidableEq

/-- Embeds `DEFAULT_CHUNK_SIZE`. -/
def DEFAULT_CHUNK_SIZE : Nat := 2000

/-- Embeds `DEFAULT_OVERLAP`. -/
def DEFAULT_OVERLAP : Nat := 200

/-- Effective chunk size: `options?.chunk_size || DEFAULT_CHUNK_SIZE`. -/
def effChunkSize (o : ChunkOptions) : Nat := jsOrNat o.chunk_size DEFAULT_CHUNK_SIZE

/-- Effective overlap: `options?.chunk_overlap || DEFAULT_OVERLAP`. -/
def effOverlap (o : ChunkOptions) : Nat := jsOrNat o.chunk_overlap DEFAULT_OVERLAP

/-- Index of the first match of the regex `[.!?]\s` in a character list:
a sentence terminator immediately followed by whitespace
(`searchRegion.search(/[.!?]\s/)` in `chunk_text`). -/
def findSentenceEnd : List Char → Option Nat
  | a :: b :: rest =>
    if (a = '.' || a = '!' || a = '?') && isSpace b then some 0
    else (findSentenceEnd (b :: rest)).map (· + 1)
  | _ => none

/-- The `end` offset computed by one iteration of the `chunk_text` loop:
`min (start + chunkSize) len`, snapped to a sentence boundary found in the
`±100`-character search window when the raw end is interior to the text. -/
def chunkEnd (text : List Char) (chunkSize start : Nat) : Nat :=
  let e0 := min (start + chunkSize) text.length
  if e0 < text.length then
    let searchStart := max (e0 - 100) start
    let searchEnd := min (e0 + 100) text.length
    match findSentenceEnd ((text.drop searchStart).take (searchEnd - searchStart)) with
    | some i => searchStart + i + 2
    | none => e0
  else e0

/-- The next `start` offset of the `chunk_text` loop:
`end - overlap` when that strictly increases `start`, else `end`. -/
def chunkNextStart (text : List Char) (chunkSize overlap start : Nat) : Nat :=
  let e := chunkEnd text chunkSize start
  if start < e - overlap then e - overlap else e

/-- The `while (start < text.length)` loop of `chunk_text`, with explicit
fuel; `none` means the fuel ran out before the loop condition failed. -/
def chunkLoop (text : List Char) (chunkSize overlap : Nat) :
    Nat → Nat → Nat → Option (List TextChunk)
  | 0, start, _ => if start < text.length then none else some []
  | fuel + 1, start, index =>
    if start < text.length then
      let e := chunkEnd text chunkSize start
      let ctext := trim ((text.drop start).take (e - start))
      let ns := chunkNextStart text chunkSize overlap start
      if ctext = [] then chunkLoop text chunkSize overlap fuel ns index
      else (chunkLoop text chunkSize overlap fuel ns (index + 1)).map
        (⟨ctext, index, start, e⟩ :: ·)
    else some []

/-- Embeds `chunk_text` of `text_chunker.ts`; fuel `text.length` suffices
(proved below), so the `getD` default is never taken. -/
def chunk_text (text : List Char) (options : ChunkOptions) : List TextChunk :=
  (chunkLoop text (effChunkSize options) (effOverlap options) text.length 0 0).getD []

/-- A position `i` is covered by one of the returned chunk spans. -/
def coveredBy (chunks : List TextChunk) (i : Nat) : Bool :=
  chunks.any (fun c => c.start_char ≤ i && i < c.end_char)

/-- The claim's coverage property: every position of `[0, len)` lies in
some returned chunk span. -/
def coversText (chunks : List TextChunk) (len : Nat) : Bool :=
  (List.range len).all (coveredBy chunks)

/-- Adjacent returned chunks pairwise: starts are monotone and the spans'
intersection (`min e e' - s'` for start-sorted spans) has at most `ov`
characters. -/
def overlapBounded (ov : Nat) : List TextChunk → Bool
  | c :: c' :: rest =>
    (decide (c.start_char ≤ c'.start_char) &&
      decide (min c.end_char c'.end_char - c'.start_char ≤ ov)) &&
      overlapBounded ov (c' :: rest)
  | _ => true

/-! ## Transcript parser (`src/parsers/transcript.parser.ts` /
`parser.interface.ts` part: `chunk_utterances`, `time_to_ms`,
`TranscriptParser.parse`) -/

/-- Embeds `VttUtterance` as produced by `parse_vtt`. -/
structure VttUtterance where
  start_time : List Char
  end_time : List Char
  speaker : List Char
  text : List Char
deriving DecidableEq

/-- JS `parseInt(s, 10)` on the digit strings produced by the VTT
timestamp regex: value of the longest digit prefix. -/
def parseIntJS (s : List Char) : Nat :=
  (s.takeWhile Char.isDigit).foldl (fun acc c => 10 * acc + (c.toNat - 48)) 0

/-- Split a character list at a separator character (JS `String.split`). -/
def splitOnChar (sep : Char) (s : List Char) : List (List Char) :=
  match s with
  | [] => [[]]
  | c :: rest =>
    let r := splitOnChar sep rest
    if c = sep then [] :: r
    else match r with
      | [] => [[c]]
      | h :: t => (c :: h) :: t

/-- Embeds `time_to_ms`: convert a `HH:MM:SS.mmm` VTT timestamp to milliseconds. -/
def time_to_ms (time : List Char) : Nat :=
  let parts := splitOnChar ':' time
  let hours := parseIntJS (parts.getD 0 [])
  let minutes := parseIntJS (parts.getD 1 [])
  let secParts := splitOnChar '.' (parts.getD 2 [])
  let seconds := parseIntJS (secParts.getD 0 [])
  let ms := parseIntJS (secParts.getD 1 [])
  hours * 3600000 + minutes * 60000 + seconds * 1000 + ms

/-- Embeds `CHUNK_DURATION_MS = 4 * 60 * 1000`. -/
def CHUNK_DURATION_MS : Nat := 4 * 60 * 1000

/-- Loop body of `chunk_utterances`: `cur` is the (non-empty) current
chunk whose first utterance started at `chunkStart` ms. A new chunk is
begun when `currentMs - chunkStartMs >= CHUNK_DURATION_MS`. -/
def chunkUttGo (cur : List VttUtterance) (chunkStart : Nat) :
    List VttUtterance → List (List VttUtterance)
  | [] => [cur]
  | u :: rest =>
    let t := time_to_ms u.start_time
    if CHUNK_DURATION_MS ≤ t - chunkStart then
      cur :: chunkUttGo [u] t rest
    else
      chunkUttGo (cur ++ [u]) chunkStart rest

/-- Embeds `chunk_utterances`: group utterances into 4-minute windows measured
from each chunk's first utterance start time. -/
def chunk_utterances : List VttUtterance → List (List VttUtterance)
  | [] => []
  | u :: rest => chunkUttGo [u] (time_to_ms u.start_time) rest

/-- Modelled from the spec (claim C7's wording), for comparison with the
code: a new chunk begins exactly when an utterance's start time strictly
exceeds `chunk_start + 4 minutes`. -/
def chunkUttGoSpec (cur : List VttUtterance) (chunkStart : Nat) :
    List VttUtterance → List (List VttUtterance)
  | [] => [cur]
  | u :: rest =>
    let t := time_to_ms u.start_time
    if chunkStart + CHUNK_DURATION_MS < t then
      cur :: chunkUttGoSpec [u] t rest
    else
      chunkUttGoSpec (cur ++ [u]) chunkStart rest

/-- Modelled from the spec (claim C7's wording): grouping with a strict
"exceeds `chunk_start + window`" boundary. -/
def chunk_utterances_spec : List VttUtterance → List (List VttUtterance)
  | [] => []
  | u :: rest => chunkUttGoSpec [u] (time_to_ms u.start_time) rest

/-- Every non-leading utterance of a chunk starts strictly less than
4 minutes after the chunk's first utterance. -/
def withinWindow : List VttUtterance → Bool
  | [] => true
  | h :: t =>
    t.all (fun u =>
      time_to_ms u.start_time - time_to_ms h.start_time < CHUNK_DURATION_MS)

/-- Start time (ms) of a chunk's first utterance. -/
def headMs (c : List VttUtterance) : Nat :=
  ((c.head?.map (fun u => time_to_ms u.start_time)).getD 0)

/-- Consecutive chunks' first utterances are at least 4 minutes apart. -/
def chainLate : List (List VttUtterance) → Bool
  | c :: c' :: rest =>
    decide (CHUNK_DURATION_MS ≤ headMs c' - headMs c) && chainLate (c' :: rest)
  | _ => true

/-- The first utterance of the first chunk, when there is one. -/
def firstUtt (cs : List (List VttUtterance)) : Option VttUtterance :=
  cs.head?.bind List.head?

/-- Mapped meeting metadata handed to the transcript parser. -/
structure MeetingMetadata where
  meeting_subject : List Char
  meeting_date : List Char
  meeting_id : List Char
  attendees : List (List Char)
deriving DecidableEq

/-- The discriminated `DocumentMetadata` variant union. -/
inductive DocumentMetadata where
  | transcript
      (meeting_subject meeting_date meeting_id : List Char)
      (speakers : List (List Char))
      (timestamp_start timestamp_end : List Char)
      (attendees : List (List Char))
  | distribution_list
      (dl_name dl_email dl_id : List Char) (member_count : Nat)
deriving DecidableEq

/-- Embeds `KnowledgeDocument`. -/
structure KnowledgeDocument where
  content : List Char
  metadata : DocumentMetadata
deriving DecidableEq

/-- Embeds `[...new Set(xs)]`: deduplicate keeping first occurrences in
insertion order. -/
def insertionDedup (xs : List (List Char)) : List (List Char) :=
  xs.foldl (fun acc x => if x ∈ acc then acc else acc ++ [x]) []

/-- Render one utterance as `"[speaker] (start_time): text"`. -/
def renderUtterance (u : VttUtterance) : List Char :=
  '[' :: u.speaker ++ "] (".toList ++ u.start_time ++ "): ".toList ++ u.text

/-- Build one `KnowledgeDocument` from an utterance chunk
(`TranscriptParser.parse`, per-chunk map). -/
def transcriptChunkDoc (md : MeetingMetadata) (chunk : List VttUtterance) :
    KnowledgeDocument :=
  { content := List.intercalate ['\n'] (chunk.map renderUtterance)
    metadata := .transcript md.meeting_subject md.meeting_date md.meeting_id
      (insertionDedup (chunk.map (·.speaker)))
      ((chunk.head?.map (·.start_time)).getD [])
      ((chunk.getLast?.map (·.end_time)).getD [])
      md.attendees }

/-- Embeds `TranscriptParser.parse`, with `parse_vtt`'s utterance list and the
mapped meeting metadata as inputs: an empty utterance list yields zero
documents, otherwise one document per utterance chunk. -/
def transcript_parse (utterances : List VttUtterance) (md : MeetingMetadata) :
    List KnowledgeDocument :=
  if utterances.isEmpty then []
  else (chunk_utterances utterances).map (transcriptChunkDoc md)

/-! ## Distribution-list parser (`src/parsers/dl.parser.ts`) -/

/-- A member of a raw distribution list (`displayName`, optional `jobTitle`). -/
structure DLMember where
  displayName : List Char
  jobTitle : Option (List Char) := none
deriving DecidableEq

/-- Embeds `RawDLData` from the Graph API. -/
structure RawDLData where
  id : List Char
  displayName : List Char
  mail : List Char
  description : Option (List Char) := none
  members : List DLMember
deriving DecidableEq

/-- Render one member: `` `${m.displayName}${role}` `` where
`` role = m.jobTitle ? ` (${m.jobTitle})` : '' ``. -/
def renderMember (m : DLMember) : List Char :=
  m.displayName ++ (if truthy m.jobTitle then " (".toList ++ (m.jobTitle.getD []) ++ [')'] else [])

/-- Decimal rendering of a JS number interpolated into a template string. -/
def natToChars (n : Nat) : List Char := (toString n).toList

/-- Embeds `parse_distribution_list`: one raw DL to one `KnowledgeDocument`. -/
def parse_distribution_list (dl : RawDLData) : KnowledgeDocument :=
  let memberList := List.intercalate ", ".toList (dl.members.map renderMember)
  let description := jsOrStr dl.description "No description".toList
  let content := List.intercalate [' ']
    [ "Distribution List: ".toList ++ dl.displayName ++ " (".toList ++ dl.mail ++ ").".toList
    , "Description: ".toList ++ description ++ ['.']
    , "Members (".toList ++ natToChars dl.members.length ++ "): ".toList ++
        jsOrStrVal memberList "No members".toList ++ ['.'] ]
  { content := content
    metadata := .distribution_list dl.displayName dl.mail dl.id dl.members.length }

/-- Embeds `DLParser.parse`: wraps `parse_distribution_list` in a one-element list. -/
def dlParserParse (dl : RawDLData) : List KnowledgeDocument :=
  [parse_distribution_list dl]

/-- Modelled from the spec (claim C9's wording): a member renders as
`"Name (Role)"` when a role is present, else just `"Name"`. -/
def specRenderMember (m : DLMember) : List Char :=
  m.displayName ++
    (match m.jobTitle with
     | some t => " (".toList ++ t ++ [')']
     | none => [])

/-- Amended member rendering: the role is attached only when it is
present *and non-empty* (JS `?:` falsiness of `""`). -/
def specRenderMemberAmended (m : DLMember) : List Char :=
  m.displayName ++
    (match m.jobTitle with
     | some t => if t = [] then [] else " (".toList ++ t ++ [')']
     | none => [])

/-- Modelled from the spec (claim C9's wording): the three-sentence
template with the description fallback taken only "when the description
is absent" and `"No members"` only for "an empty roster". -/
def spec_dl_document (dl : RawDLData) : KnowledgeDocument :=
  let roster :=
    if dl.members.isEmpty then "No members".toList
    else List.intercalate ", ".toList (dl.members.map specRenderMember)
  let description :=
    match dl.description with
    | none => "No description".toList
    | some d => d
  { content :=
      ("Distribution List: ".toList ++ dl.displayName ++ " (".toList ++ dl.mail ++ ").".toList) ++
      [' '] ++
      ("Description: ".toList ++ description ++ ['.']) ++
      [' '] ++
      ("Members (".toList ++ natToChars dl.members.length ++ "): ".toList ++ roster ++ ['.'])
    metadata := .distribution_list dl.displayName dl.mail dl.id dl.members.length }

/-- Amended spec template: the fallbacks also fire when the description
string, a role string, or the rendered roster string is empty (JS `||` /
`?:` falsiness of `""`). -/
def spec_dl_document_amended (dl : RawDLData) : KnowledgeDocument :=
  let rendered := List.intercalate ", ".toList (dl.members.map specRenderMemberAmended)
  let roster := if rendered = [] then "No members".toList else rendered
  let description :=
    match dl.description with
    | none => "No description".toList
    | some d => if d = [] then "No description".toList else d
  { content :=
      ("Distribution List: ".toList ++ dl.displayName ++ " (".toList ++ dl.mail ++ ").".toList) ++
      [' '] ++
      ("Description: ".toList ++ description ++ ['.']) ++
      [' '] ++
      ("Members (".toList ++ natToChars dl.members.length ++ "): ".toList ++ roster ++ ['.'])
    metadata := .distribution_list dl.displayName dl.mail dl.id dl.members.length }

/-! ## Vector stores (`src/store/pg/pg.vector_store.ts`,
`src/store/mongo/mongo.vector_store.ts`)

A stored row/document is modelled with the metadata fields the filter
builders touch (each optional: a JSON key may be absent), plus the
similarity score the backend computes for the query vector at hand
(`1 - (embedding <=> $1)` for pg, `vectorSearchScore` for Atlas): since
both backends rank by that per-query quantity, modelling it as a field
of the candidate row is the standard shallow embedding of the query. -/

/-- The metadata fields reachable by `build_where_clause` /
`build_search_filter` / `build_delete_filter`. -/
structure FlatMetadata where
  source_type : Option (List Char) := none
  meeting_subject : Option (List Char) := none
  dl_name : Option (List Char) := none
  pdf_filename : Option (List Char) := none
  meeting_date : Option (List Char) := none
deriving DecidableEq

/-- Embeds `SearchFilters` (`search.types.ts`): all fields optional. -/
structure SearchFilters where
  source_type : Option (List Char) := none
  meeting_subject : Option (List Char) := none
  dl_name : Option (List Char) := none
  pdf_filename : Option (List Char) := none
  date_from : Option (List Char) := none
  date_to : Option (List Char) := none
deriving DecidableEq

/-- A stored vector-store row, carrying the similarity score the backend
computes for the current query vector. -/
structure StoredRow where
  content : List Char
  metadata : FlatMetadata
  score : Rat
deriving DecidableEq

/-- Lexicographic `≤` on character lists (SQL text comparison of the
`metadata->>'meeting_date'` strings, and Mongo string comparison). -/
def lexLe : List Char → List Char → Bool
  | [], _ => true
  | _ :: _, [] => false
  | a :: as, b :: bs =>
    if a.toNat < b.toNat then true
    else if b.toNat < a.toNat then false
    else lexLe as bs

/-- An equality condition of the filter builders: the metadata field is
compared to the filter value; an absent metadata key never matches
(SQL `NULL = x` is not true; Mongo `$eq` on a missing path fails). -/
def eqCond (filterVal : Option (List Char)) (metaVal : Option (List Char)) : Bool :=
  if truthy filterVal then
    match metaVal with
    | some v => v = filterVal.getD []
    | none => false
  else true

/-- A date-range condition (`cmp` is `≥` or `≤` on the date strings). -/
def dateCond (filterVal : Option (List Char)) (cmp : List Char → List Char → Bool)
    (metaVal : Option (List Char)) : Bool :=
  if truthy filterVal then
    match metaVal with
    | some v => cmp v (filterVal.getD [])
    | none => false
  else true

/-- Embeds `PGVectorStore.build_where_clause` produces a non-empty `WHERE`
clause iff some filter field is truthy. -/
def pgHasConditions (f : SearchFilters) : Bool :=
  truthy f.source_type || truthy f.meeting_subject || truthy f.dl_name ||
    truthy f.pdf_filename || truthy f.date_from || truthy f.date_to

/-- Row satisfies the conjunction of conditions built by
`PGVectorStore.build_where_clause`. -/
def pgMatches (f : SearchFilters) (m : FlatMetadata) : Bool :=
  eqCond f.source_type m.source_type &&
  eqCond f.meeting_subject m.meeting_subject &&
  eqCond f.dl_name m.dl_name &&
  eqCond f.pdf_filename m.pdf_filename &&
  dateCond f.date_from (fun v w => lexLe w v) m.meeting_date &&
  dateCond f.date_to (fun v w => lexLe v w) m.meeting_date

/-- Embeds `MongoVectorStore.build_search_filter` as a predicate on a document. -/
def mongoSearchMatches (f : SearchFilters) (m : FlatMetadata) : Bool :=
  eqCond f.source_type m.source_type &&
  eqCond f.meeting_subject m.meeting_subject &&
  eqCond f.dl_name m.dl_name &&
  eqCond f.pdf_filename m.pdf_filename &&
  dateCond f.date_from (fun v w => lexLe w v) m.meeting_date &&
  dateCond f.date_to (fun v w => lexLe v w) m.meeting_date

/-- Embeds `MongoVectorStore.build_delete_filter` as a predicate on a document:
equality conditions only, no date range; an empty filter yields the
empty Mongo filter `{}`, which matches every document. -/
def mongoDeleteMatches (f : SearchFilters) (m : FlatMetadata) : Bool :=
  eqCond f.source_type m.source_type &&
  eqCond f.meeting_subject m.meeting_subject &&
  eqCond f.dl_name m.dl_name &&
  eqCond f.pdf_filename m.pdf_filename

/-- Embeds `PGVectorStore.delete`: refuse an empty `WHERE` clause (return `0`,
delete nothing), else delete the matching rows and return their count. -/
def pg_delete (table : List StoredRow) (f : SearchFilters) :
    Nat × List StoredRow :=
  if pgHasConditions f then
    (table.countP (fun r => pgMatches f r.metadata),
     table.filter (fun r => !pgMatches f r.metadata))
  else (0, table)

/-- Embeds `MongoVectorStore.delete`: `deleteMany(build_delete_filter(filter))` —
no empty-filter guard. -/
def mongo_delete (coll : List StoredRow) (f : SearchFilters) :
    Nat × List StoredRow :=
  (coll.countP (fun r => mongoDeleteMatches f r.metadata),
   coll.filter (fun r => !mongoDeleteMatches f r.metadata))

/-- Stable insertion into a list sorted by `le` (backend `ORDER BY`). -/
def insertLe (le : StoredRow → StoredRow → Bool) (x : StoredRow) :
    List StoredRow → List StoredRow
  | [] => [x]
  | y :: ys => if le x y then x :: y :: ys else y :: insertLe le x ys

/-- Insertion sort by `le` (backend ranking of candidates). -/
def sortLe (le : StoredRow → StoredRow → Bool) (l : List StoredRow) :
    List StoredRow :=
  l.foldr (insertLe le) []

/-- Descending-by-score comparison (ascending cosine distance
`embedding <=> $1`, descending `vectorSearchScore`). -/
def scoreDesc (a b : StoredRow) : Bool := b.score ≤ a.score

/-- Embeds `SearchResult`. -/
structure SearchResult where
  content : List Char
  metadata : FlatMetadata
  score : Rat
deriving DecidableEq

/-- Row predicate of the pg `WHERE` clause for `options?.filter`
(`undefined` filter means no clause at all). -/
def pgRowMatch (f : Option SearchFilters) (r : StoredRow) : Bool :=
  match f with
  | none => true
  | some f => pgMatches f r.metadata

/-- Document predicate of the Mongo `$vectorSearch` filter for
`options?.filter`. -/
def mongoRowMatch (f : Option SearchFilters) (r : StoredRow) : Bool :=
  match f with
  | none => true
  | some f => mongoSearchMatches f r.metadata

/-- The candidate rows the pg query fetches: rows passing the `WHERE`
clause, ordered by distance, truncated by `LIMIT limit` — the query
requests exactly `limit` rows. -/
def pg_fetch (table : List StoredRow) (f : Option SearchFilters) (limit : Nat) :
    List StoredRow :=
  (sortLe scoreDesc (table.filter (pgRowMatch f))).take limit

/-- Embeds `PGVectorStore.search`: fetch the `limit` nearest rows, then
post-filter by `row.score >= minScore`. -/
def pg_search (table : List StoredRow) (f : Option SearchFilters)
    (limit : Nat) (minScore : Rat) : List SearchResult :=
  ((pg_fetch table f limit).filter (fun r => minScore ≤ r.score)).map
    (fun r => ⟨r.content, r.metadata, r.score⟩)

/-- Embeds `numCandidates: limit * 10` of the Mongo `$vectorSearch` stage. -/
def mongo_num_candidates (limit : Nat) : Nat := limit * 10

/-- The documents the Mongo `$vectorSearch` stage emits: documents
passing the index filter, ranked by score, truncated by the stage's
`limit` (with `numCandidates = limit * 10` an ANN accuracy knob,
modelled as exact ranking). -/
def mongo_fetch (coll : List StoredRow) (f : Option SearchFilters) (limit : Nat) :
    List StoredRow :=
  (sortLe scoreDesc (coll.filter (mongoRowMatch f))).take limit

/-- Embeds `MongoVectorStore.search`: `$vectorSearch` then `$project` then
`$match score >= minScore`. -/
def mongo_search (coll : List StoredRow) (f : Option SearchFilters)
    (limit : Nat) (minScore : Rat) : List SearchResult :=
  ((mongo_fetch coll f limit).filter (fun r => minScore ≤ r.score)).map
    (fun r => ⟨r.content, r.metadata, r.score⟩)

/-! ## Sync-state tracker (`src/services/sync_state.service.ts`) -/

/-- Embeds `SyncState` (`sync.types.ts`); timestamps in epoch milliseconds. -/
structure SyncState where
  job_name : List Char
  last_success : Int
  updated_at : Int
deriving DecidableEq

/-- The meta-store backed `find_one({job_name})` read, which can fail
(backend unreachable); `readFails` selects that outcome. -/
def syncFindOne (records : List SyncState) (readFails : Bool) (job : List Char) :
    Except (List Char) (Option SyncState) :=
  if readFails then .error "read failure".toList
  else .ok (records.find? (fun r => r.job_name = job))

/-- Embeds `sync_state.get_last_sync`: return the record's `last_success` when
one exists; fall back to `Date.now() - 24*60*60*1000` when there is no
record or the read throws (the catch swallows the error). -/
def get_last_sync (records : List SyncState) (readFails : Bool)
    (job : List Char) (now : Int) : Except (List Char) Int :=
  match syncFindOne records readFails job with
  | .ok (some r) => .ok r.last_success
  | .ok none => .ok (now - 24 * 60 * 60 * 1000)
  | .error _ => .ok (now - 24 * 60 * 60 * 1000)

/-- Embeds `sync_state.upsert` over the meta store: update the matching record
(`$set` / `ON CONFLICT DO UPDATE`) or insert a new one. -/
def syncUpsert (records : List SyncState) (job : List Char) (ls ua : Int) :
    List SyncState :=
  if records.any (fun r => r.job_name = job) then
    records.map (fun r => if r.job_name = job then { r with last_success := ls, updated_at := ua } else r)
  else records ++ [⟨job, ls, ua⟩]

/-- Look up a job's watermark. -/
def lastSuccessOf (records : List SyncState) (job : List Char) : Option Int :=
  (records.find? (fun r => r.job_name = job)).map (·.last_success)

/-! ## Ingestion orchestrators (`src/services/ingestion/transcript.ingest.ts`,
`src/services/ingestion/dl.ingest.ts`)

The external collaborators are modelled as oracles carried with each
extracted item: `parse` is the outcome of `parsers.transcripts.parse`
(which can throw on a malformed item) and `add` the outcome of the
`documents.add` call (embedding + insert, which can throw). The pre-loop
extraction is an `Except` value; `deleteCount` is the result of the
pre-loop `documents.delete` on the DL path. -/

/-- Embeds `IngestResult` (`ingest.types.ts`). -/
structure IngestResult where
  processed : Nat
  errors : Nat
  details : List (List Char)
deriving DecidableEq

/-- One extracted transcript item together with the outcomes of the
per-item collaborator calls. -/
structure TranscriptItem where
  transcript_id : List Char
  subject : List Char
  parse : Except (List Char) (List KnowledgeDocument)
  add : Except (List Char) Unit

/-- Detail line for a failed transcript item. -/
def transcriptErrLine (item : TranscriptItem) (msg : List Char) : List Char :=
  "Error processing transcript ".toList ++ item.transcript_id ++ ": ".toList ++ msg

/-- Detail line for a processed transcript item. -/
def transcriptOkLine (item : TranscriptItem) (n : Nat) : List Char :=
  "Processed meeting \"".toList ++ item.subject ++ "\": ".toList ++
    natToChars n ++ " chunks".toList

/-- Loop body of the transcript `run()`: the per-item `try/catch`.
Accumulator is `(processed, errors, details)`. -/
def transcriptStep (acc : Nat × Nat × List (List Char)) (item : TranscriptItem) :
    Nat × Nat × List (List Char) :=
  match item.parse with
  | .error msg => (acc.1, acc.2.1 + 1, acc.2.2 ++ [transcriptErrLine item msg])
  | .ok docs =>
    if 0 < docs.length then
      match item.add with
      | .ok _ =>
        (acc.1 + docs.length, acc.2.1, acc.2.2 ++ [transcriptOkLine item docs.length])
      | .error msg => (acc.1, acc.2.1 + 1, acc.2.2 ++ [transcriptErrLine item msg])
    else acc

/-- Embeds `run()` of `transcript.ingest.ts`: extract, per-item parse/add with
`try/continue` isolation, then upsert the `transcript` watermark to now;
a throwing extraction is caught once, recorded, and leaves the sync
state untouched. Returns the `IngestResult` and the new sync state. -/
def transcript_run (extract : Except (List Char) (List TranscriptItem))
    (sync0 : List SyncState) (now : Int) : IngestResult × List SyncState :=
  match extract with
  | .error msg =>
    (⟨0, 1, ["Fatal error during transcript ingestion: ".toList ++ msg]⟩, sync0)
  | .ok items =>
    let acc := items.foldl transcriptStep (0, 0, [])
    (⟨acc.1, acc.2.1, acc.2.2⟩, syncUpsert sync0 "transcript".toList now now)

/-- Whether the per-item `try` of the transcript loop catches for this item. -/
def transcriptItemFails (item : TranscriptItem) : Bool :=
  match item.parse with
  | .error _ => true
  | .ok docs =>
    if 0 < docs.length then
      match item.add with
      | .ok _ => false
      | .error _ => true
    else false

/-- Chunks added for this item (0 when it fails or parses to no docs). -/
def transcriptItemChunks (item : TranscriptItem) : Nat :=
  match item.parse with
  | .error _ => 0
  | .ok docs =>
    if 0 < docs.length then
      match item.add with
      | .ok _ => docs.length
      | .error _ => 0
    else 0

/-- Whether the item contributes a success detail line (parsed to a
non-empty document list and was added). -/
def transcriptItemOkLine (item : TranscriptItem) : Bool :=
  match item.parse with
  | .error _ => false
  | .ok docs =>
    if 0 < docs.length then
      match item.add with
      | .ok _ => true
      | .error _ => false
    else false

/-- The detail lines one item appends: an error line when the per-item
`try` catches, a success line when a non-empty document list is added,
nothing when the item parses to no documents. -/
def transcriptItemLines (item : TranscriptItem) : List (List Char) :=
  match item.parse with
  | .error msg => [transcriptErrLine item msg]
  | .ok docs =>
    if 0 < docs.length then
      match item.add with
      | .ok _ => [transcriptOkLine item docs.length]
      | .error msg => [transcriptErrLine item msg]
    else []

/-- One extracted distribution list together with the outcome of its
`documents.add` call (`parsers.dls.parse` is pure and total). -/
structure DLItem where
  dl : RawDLData
  add : Except (List Char) Unit

/-- Loop body of the DL `run()`. -/
def dlStep (acc : Nat × Nat × List (List Char)) (item : DLItem) :
    Nat × Nat × List (List Char) :=
  let docs := dlParserParse item.dl
  match item.add with
  | .ok _ =>
    (acc.1 + docs.length, acc.2.1,
      acc.2.2 ++ ["Processed DL \"".toList ++ item.dl.displayName ++ "\" (".toList ++
        natToChars item.dl.members.length ++ " members)".toList])
  | .error msg =>
    (acc.1, acc.2.1 + 1,
      acc.2.2 ++ ["Error processing DL ".toList ++ item.dl.displayName ++ ": ".toList ++ msg])

/-- Embeds `run()` of `dl.ingest.ts`: extract, delete existing
`distribution_list` documents (`deleteCount` is that call's result),
re-add every list with per-item isolation, then upsert the
`distribution_list` watermark; a throwing extraction is caught once and
leaves the sync state untouched. -/
def dl_run (extract : Except (List Char) (List DLItem)) (deleteCount : Nat)
    (sync0 : List SyncState) (now : Int) : IngestResult × List SyncState :=
  match extract with
  | .error msg =>
    (⟨0, 1, ["Fatal error during DL ingestion: ".toList ++ msg]⟩, sync0)
  | .ok items =>
    let det0 := ["Deleted ".toList ++ natToChars deleteCount ++ " existing DL documents".toList]
    let acc := items.foldl dlStep (0, 0, det0)
    (⟨acc.1, acc.2.1, acc.2.2⟩, syncUpsert sync0 "distribution_list".toList now now)

/-! ## Concrete instances used by counterexamples and witnesses -/

/-- A text whose middle window is all whitespace: `"ab   cd"`. -/
def exGapText : List Char := "ab   cd".toList

/-- Chunk options `chunk_size = 3`, `chunk_overlap = 1`. -/
def exGapOptions : ChunkOptions := ⟨some 3, some 1⟩

/-- Two utterances exactly 4 minutes apart. -/
def exBoundaryUtts : List VttUtterance :=
  [ ⟨"00:00:00.000".toList, "00:00:01.000".toList, "A".toList, "x".toList⟩
  , ⟨"00:04:00.000".toList, "00:04:01.000".toList, "B".toList, "y".toList⟩ ]

/-- A raw DL with an empty (but present) description and one member with
an empty display name and an empty (but present) job title. -/
def exDLFringe : RawDLData :=
  { id := "1".toList, displayName := "Eng".toList, mail := "eng@x".toList
  , description := some [], members := [⟨[], some []⟩] }

/-- One stored `distribution_list` document. -/
def exDLRow : StoredRow :=
  { content := "doc".toList
  , metadata := { source_type := some "distribution_list".toList }
  , score := 1 }

/-- The empty filter: no field set. -/
def emptyFilter : SearchFilters := {}

/-- Twelve stored rows with pairwise distinct scores. -/
def exRows12 : List StoredRow :=
  (List.range 12).map (fun i => ⟨[], {}, (i : Rat)⟩)

/-- Two high-scoring rows (integer-valued scores keep kernel reduction
cheap). -/
def exRows2 : List StoredRow :=
  [⟨"a".toList, {}, 2⟩, ⟨"b".toList, {}, 1⟩]

/-- Concrete meeting metadata. -/
def exMeetingMd : MeetingMetadata :=
  ⟨"Standup".toList, "2026-01-01".toList, "m1".toList, ["A".toList]⟩

/-! ## Chunker lemmas -/

theorem effChunkSize_pos (o : ChunkOptions) : 0 < effChunkSize o := by
  unfold effChunkSize jsOrNat
  cases h : o.chunk_size with
  | none => simp [DEFAULT_CHUNK_SIZE]
  | some n =>
    cases n with
    | zero => simp [DEFAULT_CHUNK_SIZE]
    | succ m => simp

theorem findSentenceEnd_le :
    ∀ (l : List Char) (i : Nat), findSentenceEnd l = some i → i + 2 ≤ l.length
  | [], i => by simp [findSentenceEnd]
  | [a], i => by simp [findSentenceEnd]
  | a :: b :: rest, i => by
    rw [findSentenceEnd]
    split
    · intro h
      obtain rfl : (0 : Nat) = i := Option.some.inj h
      simp
    · intro h
      obtain ⟨j, hj, rfl⟩ := Option.map_eq_some'.mp h
      have := findSentenceEnd_le (b :: rest) j hj
      simp [List.length_cons] at this ⊢
      omega

theorem chunkEnd_bounds (text : List Char) (cs start : Nat)
    (hcs : 0 < cs) (hs : start < text.length) :
    start < chunkEnd text cs start ∧ chunkEnd text cs start ≤ text.length ∧
      chunkEnd text cs start ≤ start + cs + 100 := by
  simp only [chunkEnd]
  split
  case isTrue h =>
    split
    case h_1 i heq =>
      have hle := findSentenceEnd_le _ _ heq
      rw [List.length_take, List.length_drop] at hle
      omega
    case h_2 => omega
  case isFalse h => omega

theorem chunkNextStart_gt (text : List Char) (cs ov start : Nat)
    (hcs : 0 < cs) (hs : start < text.length) :
    start < chunkNextStart text cs ov start := by
  have h := chunkEnd_bounds text cs start hcs hs
  simp only [chunkNextStart]
  split <;> omega

theorem chunkLoop_isSome :
    ∀ (fuel : Nat) (text : List Char) (cs ov start idx : Nat),
      0 < cs → text.length - start ≤ fuel →
      (chunkLoop text cs ov fuel start idx).isSome = true
  | 0, text, cs, ov, start, idx => by
    intro _ hf
    have : ¬ start < text.length := by omega
    simp [chunkLoop, this]
  | fuel + 1, text, cs, ov, start, idx => by
    intro hcs hf
    rw [chunkLoop]
    by_cases h : start < text.length
    · have hns := chunkNextStart_gt text cs ov start hcs h
      have hf' : text.length - chunkNextStart text cs ov start ≤ fuel := by omega
      simp only [if_pos h]
      split
      · exact chunkLoop_isSome fuel text cs ov _ idx hcs hf'
      · have hrec := chunkLoop_isSome fuel text cs ov
          (chunkNextStart text cs ov start) (idx + 1) hcs hf'
        cases hc : chunkLoop text cs ov fuel (chunkNextStart text cs ov start) (idx + 1) with
        | none => rw [hc] at hrec; simp at hrec
        | some l => simp [hc]
    · simp [h]

/-- The fuel-`text.length` loop run that defines `chunk_text` completes. -/
theorem chunkLoop_run_eq (text : List Char) (options : ChunkOptions) :
    chunkLoop text (effChunkSize options) (effOverlap options) text.length 0 0 =
      some (chunk_text text options) := by
  have h0 : (chunkLoop text (effChunkSize options) (effOverlap options)
      text.length 0 0).isSome = true :=
    chunkLoop_isSome text.length text _ _ 0 0 (effChunkSize_pos options) (by omega)
  cases hres : chunkLoop text (effChunkSize options) (effOverlap options) text.length 0 0 with
  | none => rw [hres] at h0; simp at h0
  | some l => simp [chunk_text, hres]

/-- C5: for every input text and every chunk_size/chunk_overlap
configuration (including `overlap ≥ chunk_size` and
`overlap ≥ len(text)`), `chunk_text` terminates: whenever the loop
condition `start < text.length` holds, the next start offset strictly
increases, so the loop completes within `text.length` iterations — any
fuel of at least `text.length - start` steps suffices, and in particular
the `text.length`-fuel run that defines `chunk_text` returns a value. -/
theorem chunk_text_terminates (text : List Char) (options : ChunkOptions)
    (start index fuel : Nat) (hfuel : text.length - start ≤ fuel) :
    (start < text.length →
      start < chunkNextStart text (effChunkSize options) (effOverlap options) start) ∧
    (chunkLoop text (effChunkSize options) (effOverlap options) fuel start index).isSome = true ∧
    chunkLoop text (effChunkSize options) (effOverlap options) text.length 0 0 =
      some (chunk_text text options) := by
  have hcs := effChunkSize_pos options
  exact ⟨fun h => chunkNextStart_gt text _ _ start hcs h,
    chunkLoop_isSome fuel text _ _ start index hcs hfuel,
    chunkLoop_run_eq text options⟩

/-- Witness for C5 at a concrete input with `overlap ≥ chunk_size` and
`overlap ≥ len(text)`. -/
theorem chunk_text_terminates_witness :
    ("ab".toList.length - 0 ≤ 2) ∧
    ((0 < "ab".toList.length →
      0 < chunkNextStart "ab".toList (effChunkSize ⟨some 2, some 5⟩)
        (effOverlap ⟨some 2, some 5⟩) 0) ∧
    (chunkLoop "ab".toList (effChunkSize ⟨some 2, some 5⟩)
      (effOverlap ⟨some 2, some 5⟩) 2 0 0).isSome = true ∧
    chunkLoop "ab".toList (effChunkSize ⟨some 2, some 5⟩)
      (effOverlap ⟨some 2, some 5⟩) "ab".toList.length 0 0 =
      some (chunk_text "ab".toList ⟨some 2, some 5⟩)) :=
  ⟨by decide, chunk_text_terminates "ab".toList ⟨some 2, some 5⟩ 0 0 2 (by decide)⟩

theorem dropWhile_eq_nil_all {p : Char → Bool} :
    ∀ l : List Char, l.dropWhile p = [] → ∀ c ∈ l, p c
  | [], _, c, hc => by simp at hc
  | a :: rest, h, c, hc => by
    rw [List.dropWhile_cons] at h
    by_cases hp : p a
    · rw [if_pos hp] at h
      rcases List.mem_cons.mp hc with rfl | hc'
      · exact hp
      · exact dropWhile_eq_nil_all rest h c hc'
    · rw [if_neg hp] at h
      exact absurd h (by simp)

theorem takeWhile_all {p : Char → Bool} :
    ∀ l : List Char, ∀ c ∈ l.takeWhile p, p c
  | [], c, hc => by simp [List.takeWhile] at hc
  | a :: rest, c, hc => by
    rw [List.takeWhile_cons] at hc
    by_cases hp : p a
    · rw [if_pos hp] at hc
      rcases List.mem_cons.mp hc with rfl | hc'
      · exact hp
      · exact takeWhile_all rest c hc'
    · rw [if_neg hp] at hc
      simp at hc

/-- A window whose trimmed text is empty is all whitespace. -/
theorem trim_eq_nil_all_space (l : List Char) (h : trim l = []) :
    ∀ c ∈ l, isSpace c := by
  intro c hc
  unfold trim at h
  rw [List.reverse_eq_nil_iff] at h
  have h3 : ∀ c ∈ l.dropWhile isSpace, isSpace c := fun c hc =>
    dropWhile_eq_nil_all _ h c (List.mem_reverse.mpr hc)
  rw [← List.takeWhile_append_dropWhile (p := isSpace) (l := l)] at hc
  rcases List.mem_append.mp hc with h5 | h5
  · exact takeWhile_all l c h5
  · exact h3 c h5

/-- Every chunk the loop emits is non-empty after trimming, starts at or
after the loop's current offset, has a non-degenerate span inside the
text, and spans at most `chunk_size + 100` characters. -/
theorem chunkLoop_sound :
    ∀ (fuel : Nat) (text : List Char) (cs ov start idx : Nat) (chunks : List TextChunk),
      0 < cs → chunkLoop text cs ov fuel start idx = some chunks →
      ∀ c ∈ chunks, c.text ≠ [] ∧ start ≤ c.start_char ∧ c.start_char < c.end_char ∧
        c.end_char ≤ text.length ∧ c.end_char - c.start_char ≤ cs + 100
  | 0, text, cs, ov, start, idx, chunks => by
    intro hcs hloop
    rw [chunkLoop] at hloop
    split at hloop
    · exact absurd hloop (by simp)
    · obtain rfl : ([] : List TextChunk) = chunks := Option.some.inj hloop
      intro c hc
      simp at hc
  | fuel + 1, text, cs, ov, start, idx, chunks => by
    intro hcs hloop
    simp only [chunkLoop] at hloop
    by_cases h : start < text.length
    · rw [if_pos h] at hloop
      have hns := chunkNextStart_gt text cs ov start hcs h
      have hend := chunkEnd_bounds text cs start hcs h
      split at hloop
      · intro c hc
        have := chunkLoop_sound fuel text cs ov _ idx chunks hcs hloop c hc
        exact ⟨this.1, by omega, this.2.2⟩
      · obtain ⟨rest, hrest, rfl⟩ := Option.map_eq_some'.mp hloop
        intro c hc
        rcases List.mem_cons.mp hc with rfl | hc'
        · dsimp only
          exact ⟨by assumption, le_refl _, hend.1, hend.2.1, by omega⟩
        · have := chunkLoop_sound fuel text cs ov _ (idx + 1) rest hcs hrest c hc'
          exact ⟨this.1, by omega, this.2.2⟩
    · rw [if_neg h] at hloop
      obtain rfl : ([] : List TextChunk) = chunks := Option.some.inj hloop
      intro c hc
      simp at hc

/-- Every text position at or beyond the loop's current offset is either
inside an emitted chunk's span or is a whitespace character (dropped
all-whitespace windows are the only positions not covered). -/
theorem chunkLoop_covers :
    ∀ (fuel : Nat) (text : List Char) (cs ov start idx : Nat) (chunks : List TextChunk),
      0 < cs → chunkLoop text cs ov fuel start idx = some chunks →
      ∀ i, start ≤ i → i < text.length →
        coveredBy chunks i = true ∨ isSpace (text.getD i ' ') = true
  | 0, text, cs, ov, start, idx, chunks => by
    intro hcs hloop i hi hlen
    rw [chunkLoop, if_pos (by omega : start < text.length)] at hloop
    exact absurd hloop (by simp)
  | fuel + 1, text, cs, ov, start, idx, chunks => by
    intro hcs hloop i hi hlen
    simp only [chunkLoop] at hloop
    rw [if_pos (by omega : start < text.length)] at hloop
    have hns := chunkNextStart_gt text cs ov start (by omega) (by omega)
    have hend := chunkEnd_bounds text cs start (by omega) (by omega)
    have hnsle : chunkNextStart text cs ov start ≤ chunkEnd text cs start := by
      simp only [chunkNextStart]; split <;> omega
    by_cases hie : i < chunkEnd text cs start
    · -- position inside the current window
      split at hloop
      · -- window dropped: all its characters are whitespace
        right
        next htrim =>
        have hwin := trim_eq_nil_all_space _ htrim
        have hlt : i - start < ((text.drop start).take (chunkEnd text cs start - start)).length := by
          rw [List.length_take, List.length_drop]
          omega
        have hmem : ((text.drop start).take (chunkEnd text cs start - start)).getD (i - start) ' '
            ∈ (text.drop start).take (chunkEnd text cs start - start) := by
          rw [List.getD_eq_getElem _ _ hlt]
          exact List.getElem_mem _
        have heq : ((text.drop start).take (chunkEnd text cs start - start)).getD (i - start) ' '
            = text.getD i ' ' := by
          rw [List.getD_eq_getElem _ _ hlt, List.getD_eq_getElem _ _ hlen]
          rw [List.getElem_take, List.getElem_drop]
          congr 1
          omega
        rw [← heq]
        exact hwin _ hmem
      · -- window kept: the head chunk covers the position
        left
        obtain ⟨rest, hrest, rfl⟩ := Option.map_eq_some'.mp hloop
        simp [coveredBy]
        exact Or.inl ⟨hi, hie⟩
    · -- position beyond the current window: recurse
      have hi' : chunkNextStart text cs ov start ≤ i := by omega
      split at hloop
      · exact chunkLoop_covers fuel text cs ov _ idx chunks (by omega) hloop i hi' hlen
      · obtain ⟨rest, hrest, rfl⟩ := Option.map_eq_some'.mp hloop
        rcases chunkLoop_covers fuel text cs ov _ (idx + 1) rest (by omega) hrest i hi' hlen with hcov | hsp
        · left
          simp [coveredBy] at hcov ⊢
          exact Or.inr hcov
        · right
          exact hsp

/-- The next start offset is between `end - overlap` and `end`. -/
theorem chunkNextStart_ge (text : List Char) (cs ov start : Nat) :
    chunkEnd text cs start - ov ≤ chunkNextStart text cs ov start ∧
      chunkNextStart text cs ov start ≤ chunkEnd text cs start := by
  simp only [chunkNextStart]
  split <;> omega

/-- Consecutive emitted chunks have monotone starts and overlap by at
most `overlap` characters. -/
theorem chunkLoop_chain :
    ∀ (fuel : Nat) (text : List Char) (cs ov start idx : Nat) (chunks : List TextChunk),
      0 < cs → chunkLoop text cs ov fuel start idx = some chunks →
      (∀ c ∈ chunks, start ≤ c.start_char) ∧ overlapBounded ov chunks = true
  | 0, text, cs, ov, start, idx, chunks => by
    intro hcs hloop
    rw [chunkLoop] at hloop
    split at hloop
    · exact absurd hloop (by simp)
    · obtain rfl : ([] : List TextChunk) = chunks := Option.some.inj hloop
      exact ⟨by simp, rfl⟩
  | fuel + 1, text, cs, ov, start, idx, chunks => by
    intro hcs hloop
    simp only [chunkLoop] at hloop
    by_cases h : start < text.length
    · rw [if_pos h] at hloop
      have hns := chunkNextStart_gt text cs ov start hcs h
      have hge := chunkNextStart_ge text cs ov start
      split at hloop
      · have := chunkLoop_chain fuel text cs ov _ idx chunks hcs hloop
        exact ⟨fun c hc => by have := this.1 c hc; omega, this.2⟩
      · obtain ⟨rest, hrest, rfl⟩ := Option.map_eq_some'.mp hloop
        have ih := chunkLoop_chain fuel text cs ov _ (idx + 1) rest hcs hrest
        refine ⟨?_, ?_⟩
        · intro c hc
          rcases List.mem_cons.mp hc with rfl | hc'
          · exact le_refl _
          · have := ih.1 c hc'; omega
        · cases rest with
          | nil => rfl
          | cons c' rest' =>
            have hc' : chunkNextStart text cs ov start ≤ c'.start_char :=
              ih.1 c' (by simp)
            simp only [overlapBounded, Bool.and_eq_true, decide_eq_true_eq]
            exact ⟨⟨by omega, by omega⟩, ih.2⟩
    · rw [if_neg h] at hloop
      obtain rfl : ([] : List TextChunk) = chunks := Option.some.inj hloop
      exact ⟨by simp, rfl⟩

/-- C6 counterexample: with `chunk_overlap = 1 < 3 = chunk_size`, the
all-whitespace middle window of `"ab   cd"` is dropped, so the returned
spans `(0,3), (4,7), (6,7)` leave position `3` uncovered — the returned
chunks do not cover `[0, len)`. -/
theorem chunk_text_gap_counterexample :
    effOverlap exGapOptions < effChunkSize exGapOptions ∧
    coversText (chunk_text exGapText exGapOptions) exGapText.length = false := by
  decide

/-- C6 (amended): for `overlap < chunk_size`, every text position is
either inside a returned chunk's span or is a whitespace character
(only dropped all-whitespace windows are uncovered), and consecutive
returned chunks have monotone starts and overlap by at most `overlap`
characters. -/
theorem chunk_text_cover_amended (text : List Char) (options : ChunkOptions)
    (_hov : effOverlap options < effChunkSize options) :
    (∀ i, i < text.length →
      coveredBy (chunk_text text options) i = true ∨
        isSpace (text.getD i ' ') = true) ∧
    overlapBounded (effOverlap options) (chunk_text text options) = true := by
  have hrun := chunkLoop_run_eq text options
  exact ⟨fun i hi =>
      chunkLoop_covers text.length text _ _ 0 0 _ (effChunkSize_pos options) hrun i
        (Nat.zero_le i) hi,
    (chunkLoop_chain text.length text _ _ 0 0 _ (effChunkSize_pos options) hrun).2⟩

/-- Witness for the amended C6 at a concrete input. -/
theorem chunk_text_cover_amended_witness :
    (effOverlap exGapOptions < effChunkSize exGapOptions) ∧
    ((∀ i, i < "ab".toList.length →
      coveredBy (chunk_text "ab".toList exGapOptions) i = true ∨
        isSpace ("ab".toList.getD i ' ') = true) ∧
    overlapBounded (effOverlap exGapOptions) (chunk_text "ab".toList exGapOptions) = true) :=
  ⟨by decide, chunk_text_cover_amended "ab".toList exGapOptions (by decide)⟩

/-- C10: every chunk emitted by `chunk_text` has non-empty trimmed text
and a span `0 ≤ start_char < end_char ≤ text.length` with
`end_char - start_char ≤ chunk_size + 100`: the sentence-boundary snap
moves the end at most 100 characters past the proposed end and never
past the end of the text. -/
theorem chunk_spans_bounded (text : List Char) (options : ChunkOptions)
    (c : TextChunk) (hc : c ∈ chunk_text text options) :
    c.text ≠ [] ∧ c.start_char < c.end_char ∧ c.end_char ≤ text.length ∧
      c.end_char - c.start_char ≤ effChunkSize options + 100 := by
  have h := chunkLoop_sound text.length text _ _ 0 0 _ (effChunkSize_pos options)
    (chunkLoop_run_eq text options) c hc
  exact ⟨h.1, h.2.2.1, h.2.2.2.1, h.2.2.2.2⟩

/-- Witness for C10 at a concrete input. -/
theorem chunk_spans_bounded_witness :
    (⟨"abc".toList, 0, 0, 3⟩ : TextChunk) ∈ chunk_text "abcdef".toList ⟨some 3, some 1⟩ ∧
    ((⟨"abc".toList, 0, 0, 3⟩ : TextChunk).text ≠ [] ∧
      (⟨"abc".toList, 0, 0, 3⟩ : TextChunk).start_char <
        (⟨"abc".toList, 0, 0, 3⟩ : TextChunk).end_char ∧
      (⟨"abc".toList, 0, 0, 3⟩ : TextChunk).end_char ≤ "abcdef".toList.length ∧
      (⟨"abc".toList, 0, 0, 3⟩ : TextChunk).end_char -
          (⟨"abc".toList, 0, 0, 3⟩ : TextChunk).start_char ≤
        effChunkSize ⟨some 3, some 1⟩ + 100) :=
  ⟨by decide, chunk_spans_bounded "abcdef".toList ⟨some 3, some 1⟩ _ (by decide)⟩

/-! ## Transcript-parser lemmas -/

/-- Invariant of the `chunk_utterances` loop: starting from a current
chunk `h :: tl` whose window is anchored at `h`'s start time and whose
tail already lies within the window, the loop emits chunks that
concatenate back to the input, are non-empty, stay within their
4-minute windows, and whose first utterances are at least 4 minutes
apart; the first emitted chunk starts with `h`. -/
theorem chunkUttGo_spec :
    ∀ (rest : List VttUtterance) (h : VttUtterance) (tl : List VttUtterance),
      (∀ u ∈ tl, time_to_ms u.start_time - time_to_ms h.start_time < CHUNK_DURATION_MS) →
      (chunkUttGo (h :: tl) (time_to_ms h.start_time) rest).flatten = (h :: tl) ++ rest ∧
      (∀ c ∈ chunkUttGo (h :: tl) (time_to_ms h.start_time) rest,
        c ≠ [] ∧ withinWindow c = true) ∧
      chainLate (chunkUttGo (h :: tl) (time_to_ms h.start_time) rest) = true ∧
      firstUtt (chunkUttGo (h :: tl) (time_to_ms h.start_time) rest) = some h
  | [], h, tl => by
    intro hw
    refine ⟨by simp [chunkUttGo], ?_, by simp [chunkUttGo, chainLate], by simp [chunkUttGo, firstUtt]⟩
    intro c hc
    simp [chunkUttGo] at hc
    subst hc
    refine ⟨by simp, ?_⟩
    simp only [withinWindow, List.all_eq_true, decide_eq_true_eq]
    exact hw
  | u :: rest', h, tl => by
    intro hw
    simp only [chunkUttGo]
    by_cases hb : CHUNK_DURATION_MS ≤ time_to_ms u.start_time - time_to_ms h.start_time
    · rw [if_pos hb]
      have ih := chunkUttGo_spec rest' u [] (by simp)
      refine ⟨?_, ?_, ?_, by simp [firstUtt]⟩
      · simp only [List.flatten_cons, ih.1]
        simp
      · intro c hc
        rcases List.mem_cons.mp hc with rfl | hc'
        · refine ⟨by simp, ?_⟩
          simp only [withinWindow, List.all_eq_true, decide_eq_true_eq]
          exact hw
        · exact ih.2.1 c hc'
      · cases hinner : chunkUttGo [u] (time_to_ms u.start_time) rest' with
        | nil => rw [hinner] at ih; simp [firstUtt] at ih
        | cons c' cs' =>
          have hfu := ih.2.2.2
          rw [hinner] at hfu
          cases c' with
          | nil => simp [firstUtt] at hfu
          | cons v t' =>
            have hv : v = u := by simpa [firstUtt] using hfu
            subst hv
            have hchain := ih.2.2.1
            rw [hinner] at hchain
            simp only [chainLate, Bool.and_eq_true, decide_eq_true_eq]
            refine ⟨?_, hchain⟩
            simp only [headMs, List.head?, Option.map_some', Option.getD_some]
            omega
    · rw [if_neg hb]
      have hw' : ∀ x ∈ tl ++ [u],
          time_to_ms x.start_time - time_to_ms h.start_time < CHUNK_DURATION_MS := by
        intro x hx
        rcases List.mem_append.mp hx with hx' | hx'
        · exact hw x hx'
        · simp at hx'
          subst hx'
          omega
      have ih := chunkUttGo_spec rest' h (tl ++ [u]) hw'
      refine ⟨?_, ih.2.1, ih.2.2.1, ih.2.2.2⟩
      rw [show (h :: tl) ++ [u] = h :: (tl ++ [u]) from rfl] at *
      rw [ih.1]
      simp

/-- C7 counterexample: two utterances exactly 4 minutes apart. The code's
boundary test `currentMs - chunkStartMs >= CHUNK_DURATION_MS` starts a
new chunk at exactly `chunk_start + 4 min`, where the claim's strict
"exceeds" rule would keep one chunk. -/
theorem chunk_utterances_boundary_counterexample :
    chunk_utterances exBoundaryUtts ≠ chunk_utterances_spec exBoundaryUtts ∧
    (chunk_utterances exBoundaryUtts).length = 2 ∧
    (chunk_utterances_spec exBoundaryUtts).length = 1 := by
  refine ⟨?_, by decide, by decide⟩
  decide

/-- C7 (amended): the transcript parser groups the utterances in order
(concatenating the chunks gives back the utterance list, so no utterance
is split or lost), each chunk is non-empty with every non-leading
utterance starting strictly less than 4 minutes after the chunk's first
utterance, a new chunk begins exactly when an utterance's start time is
at least `chunk_start + 4 minutes` (consecutive chunk heads are ≥ 4
minutes apart), and an empty utterance list yields zero documents. -/
theorem transcript_chunking_amended (us : List VttUtterance) (md : MeetingMetadata) :
    transcript_parse [] md = [] ∧
    (chunk_utterances us).flatten = us ∧
    (∀ c ∈ chunk_utterances us, c ≠ [] ∧ withinWindow c = true) ∧
    chainLate (chunk_utterances us) = true := by
  refine ⟨by simp [transcript_parse], ?_⟩
  cases us with
  | nil => exact ⟨by simp [chunk_utterances], by simp [chunk_utterances], by simp [chunk_utterances, chainLate]⟩
  | cons u rest =>
    have h := chunkUttGo_spec rest u [] (by simp)
    exact ⟨by simpa [chunk_utterances] using h.1,
      by simpa [chunk_utterances] using h.2.1,
      by simpa [chunk_utterances] using h.2.2.1⟩

/-- Witness for the amended C7 at a concrete input. -/
theorem transcript_chunking_amended_witness :
    transcript_parse [] exMeetingMd = [] ∧
    (chunk_utterances exBoundaryUtts).flatten = exBoundaryUtts ∧
    (∀ c ∈ chunk_utterances exBoundaryUtts, c ≠ [] ∧ withinWindow c = true) ∧
    chainLate (chunk_utterances exBoundaryUtts) = true :=
  transcript_chunking_amended exBoundaryUtts exMeetingMd

/-! ## Vector-store delete (C1) -/

/-- C1: on an empty filter, `PGVectorStore.delete` builds no `WHERE`
clause, returns `0`, and leaves the table unchanged — but
`MongoVectorStore.delete` passes the empty Mongo filter `{}` to
`deleteMany`, which matches everything: on a one-document collection it
deletes the document and returns `1` instead of the claimed `0`. -/
theorem empty_filter_delete_divergence :
    pgHasConditions emptyFilter = false ∧
    pg_delete [exDLRow] emptyFilter = (0, [exDLRow]) ∧
    mongo_delete [exDLRow] emptyFilter = (1, []) := by
  decide

/-! ## Sync-state fallback (C8) -/

/-- C8: `get_last_sync` never throws — it always returns `Except.ok`;
the value is the stored record's `last_success` when one exists, and
`now - 24*60*60*1000` (24 hours before the current time) when there is
no record for the job or the underlying read fails. -/
theorem get_last_sync_total (records : List SyncState) (readFails : Bool)
    (job : List Char) (now : Int) :
    get_last_sync records readFails job now =
      Except.ok
        (if readFails then now - 24 * 60 * 60 * 1000
         else
           match records.find? (fun r => r.job_name = job) with
           | some r => r.last_success
           | none => now - 24 * 60 * 60 * 1000) := by
  unfold get_last_sync syncFindOne
  cases readFails with
  | true => rfl
  | false => cases records.find? (fun r => r.job_name = job) <;> rfl

/-! ## Fatal extraction failure (C4) -/

/-- C4: when the pre-loop `extract()` call throws, both orchestrators
stop, return `errors = 1`, `processed = 0`, record the failure as the
only detail line, and leave the stored sync state unchanged. -/
theorem extract_failure_fatal (msg msg' : List Char) (sync0 sync0' : List SyncState)
    (now now' : Int) (deleteCount : Nat) :
    (transcript_run (.error msg) sync0 now).1.processed = 0 ∧
    (transcript_run (.error msg) sync0 now).1.errors = 1 ∧
    (transcript_run (.error msg) sync0 now).1.details =
      ["Fatal error during transcript ingestion: ".toList ++ msg] ∧
    (transcript_run (.error msg) sync0 now).2 = sync0 ∧
    (dl_run (.error msg') deleteCount sync0' now').1.processed = 0 ∧
    (dl_run (.error msg') deleteCount sync0' now').1.errors = 1 ∧
    (dl_run (.error msg') deleteCount sync0' now').1.details =
      ["Fatal error during DL ingestion: ".toList ++ msg'] ∧
    (dl_run (.error msg') deleteCount sync0' now').2 = sync0' := by
  simp [transcript_run, dl_run]

/-! ## Distribution-list template (C9) -/

theorem intercalate_three (s a b c : List Char) :
    List.intercalate s [a, b, c] = a ++ s ++ b ++ s ++ c := by
  simp [List.intercalate, List.intersperse, List.append_assoc]

/-- The code's member rendering agrees with the amended spec rendering
(role attached only when present and non-empty). -/
theorem renderMember_eq_amended (m : DLMember) :
    renderMember m = specRenderMemberAmended m := by
  unfold renderMember specRenderMemberAmended truthy
  cases m.jobTitle with
  | none => simp
  | some t => cases t <;> simp

/-- C9 counterexample: on a DL whose description is present but empty
and whose single member has an empty display name and an empty (but
present) job title, the code's content (JS `||`/`?:` falsiness) differs
from the claim's template (fallbacks only for *absent* description /
*empty roster* / attaching a present role). -/
theorem dl_template_counterexample :
    (parse_distribution_list exDLFringe).content ≠ (spec_dl_document exDLFringe).content := by
  decide

/-- C9 (amended): the DL parser produces exactly one document (no
chunking) whose content is the three-sentence template — list identity,
the description or `"No description"` when it is absent *or empty*, and
the comma-joined roster rendering each member as `"Name (Role)"` when a
non-empty role is present and `"Name"` otherwise, with `"No members"`
whenever the rendered roster string is empty (in particular for an
empty roster) — and whose metadata carries `source_type`
`'distribution_list'`, the list name, email, id, and member count. -/
theorem dl_parse_amended (dl : RawDLData) :
    dlParserParse dl = [spec_dl_document_amended dl] := by
  unfold dlParserParse parse_distribution_list spec_dl_document_amended
  have hmembers : dl.members.map renderMember = dl.members.map specRenderMemberAmended :=
    List.map_congr_left (fun m _ => renderMember_eq_amended m)
  simp only [List.cons.injEq, KnowledgeDocument.mk.injEq, and_true]
  rw [intercalate_three, hmembers]
  cases hd : dl.description with
  | none => simp [jsOrStr, jsOrStrVal, List.append_assoc]
  | some d => cases d <;> simp [jsOrStr, jsOrStrVal, List.append_assoc]

/-! ## Per-item isolation (C3) -/

/-- One step of the transcript loop, characterised by the per-item
outcome helpers. -/
theorem transcriptStep_eq (p e : Nat) (d : List (List Char)) (item : TranscriptItem) :
    transcriptStep (p, e, d) item =
      (p + transcriptItemChunks item,
       e + (if transcriptItemFails item then 1 else 0),
       d ++ transcriptItemLines item) := by
  unfold transcriptStep transcriptItemChunks transcriptItemFails transcriptItemLines
  cases item.parse with
  | error msg => simp
  | ok docs =>
    dsimp only
    by_cases h0 : 0 < docs.length
    · simp only [if_pos h0]
      cases item.add <;> simp
    · simp only [if_neg h0]
      simp

/-- The transcript loop accumulates: total chunks of the successful
items, one error per caught item, and the per-item detail lines in
order. -/
theorem transcriptFold_eq :
    ∀ (items : List TranscriptItem) (p e : Nat) (d : List (List Char)),
      items.foldl transcriptStep (p, e, d) =
        (p + (items.map transcriptItemChunks).sum,
         e + items.countP transcriptItemFails,
         d ++ (items.map transcriptItemLines).flatten)
  | [], p, e, d => by simp
  | item :: rest, p, e, d => by
    rw [List.foldl_cons, transcriptStep_eq, transcriptFold_eq rest]
    refine congrArg₂ Prod.mk ?_ (congrArg₂ Prod.mk ?_ ?_)
    · simp only [List.map_cons, List.sum_cons]
      omega
    · simp only [List.countP_cons]
      split <;> omega
    · simp [List.append_assoc]

/-- After an upsert, the job's watermark is the upserted value. -/
theorem lastSuccessOf_syncUpsert :
    ∀ (s : List SyncState) (job : List Char) (ls ua : Int),
      lastSuccessOf (syncUpsert s job ls ua) job = some ls
  | [], job, ls, ua => by simp [syncUpsert, lastSuccessOf]
  | r :: rest, job, ls, ua => by
    by_cases hr : r.job_name = job
    · have hany : (r :: rest).any (fun x => decide (x.job_name = job)) = true := by
        simp [List.any_cons, hr]
      unfold syncUpsert
      rw [if_pos hany, List.map_cons, if_pos hr]
      simp [lastSuccessOf, List.find?_cons, hr]
    · by_cases hrest : rest.any (fun x => decide (x.job_name = job)) = true
      · have hany : (r :: rest).any (fun x => decide (x.job_name = job)) = true := by
          simp only [List.any_cons, hrest, Bool.or_true]
        unfold syncUpsert
        rw [if_pos hany, List.map_cons, if_neg hr]
        have ih := lastSuccessOf_syncUpsert rest job ls ua
        unfold syncUpsert at ih
        rw [if_pos hrest] at ih
        simpa [lastSuccessOf, List.find?_cons, hr] using ih
      · have hrest' : rest.any (fun x => decide (x.job_name = job)) = false := by
          simpa using hrest
        have hany : ¬ ((r :: rest).any (fun x => decide (x.job_name = job)) = true) := by
          simp [List.any_cons, hr, hrest']
        unfold syncUpsert
        rw [if_neg hany, List.cons_append]
        have ih := lastSuccessOf_syncUpsert rest job ls ua
        unfold syncUpsert at ih
        rw [if_neg (by simp [hrest'])] at ih
        simpa [lastSuccessOf, List.find?_cons, hr] using ih

/-- C3: for any extracted batch, per-item failures are isolated — the
run returns (without throwing) `processed` equal to the total chunks
added for the successful items, `errors` equal to the number of items
whose parse or add threw, the per-item detail lines in order, and the
`transcript` sync-state watermark is still upserted to the current time
after the loop. -/
theorem transcript_run_isolation (items : List TranscriptItem)
    (sync0 : List SyncState) (now : Int) :
    (transcript_run (.ok items) sync0 now).1.processed =
      (items.map transcriptItemChunks).sum ∧
    (transcript_run (.ok items) sync0 now).1.errors =
      items.countP transcriptItemFails ∧
    (transcript_run (.ok items) sync0 now).1.details =
      (items.map transcriptItemLines).flatten ∧
    lastSuccessOf (transcript_run (.ok items) sync0 now).2 "transcript".toList =
      some now := by
  unfold transcript_run
  dsimp only
  rw [transcriptFold_eq]
  exact ⟨by simp, by simp, by simp, lastSuccessOf_syncUpsert sync0 _ now now⟩

/-! ## Search candidate limits and min_score post-filtering (C2) -/

theorem scoreDesc_total (a b : StoredRow) :
    scoreDesc a b = true ∨ scoreDesc b a = true := by
  unfold scoreDesc
  rcases le_total b.score a.score with h | h
  · exact Or.inl (by simpa using h)
  · exact Or.inr (by simpa using h)

theorem scoreDesc_trans (a b c : StoredRow) :
    scoreDesc a b = true → scoreDesc b c = true → scoreDesc a c = true := by
  unfold scoreDesc
  intro h1 h2
  simp only [decide_eq_true_eq] at *
  exact le_trans h2 h1

theorem countP_insertLe (x : StoredRow) :
    ∀ (l : List StoredRow) (p : StoredRow → Bool),
      (insertLe scoreDesc x l).countP p = ((x :: l).countP p)
  | [], p => by simp [insertLe]
  | y :: ys, p => by
    unfold insertLe
    split
    · rfl
    · simp only [List.countP_cons, countP_insertLe x ys p]
      omega

theorem length_insertLe (x : StoredRow) :
    ∀ l : List StoredRow, (insertLe scoreDesc x l).length = l.length + 1
  | [] => by simp [insertLe]
  | y :: ys => by
    unfold insertLe
    split
    · simp
    · simp [length_insertLe x ys]

theorem mem_insertLe (x a : StoredRow) :
    ∀ l : List StoredRow, a ∈ insertLe scoreDesc x l ↔ a = x ∨ a ∈ l
  | [] => by simp [insertLe]
  | y :: ys => by
    unfold insertLe
    split
    · simp [List.mem_cons]
    · simp only [List.mem_cons, mem_insertLe x a ys]
      tauto

theorem pairwise_insertLe (x : StoredRow) :
    ∀ l : List StoredRow, l.Pairwise (fun a b => scoreDesc a b = true) →
      (insertLe scoreDesc x l).Pairwise (fun a b => scoreDesc a b = true)
  | [], _ => by simp [insertLe]
  | y :: ys, hp => by
    rcases List.pairwise_cons.mp hp with ⟨hy, hys⟩
    unfold insertLe
    split
    case isTrue hxy =>
      rw [List.pairwise_cons]
      refine ⟨?_, hp⟩
      intro b hb
      rcases List.mem_cons.mp hb with rfl | hb'
      · exact hxy
      · exact scoreDesc_trans x y b hxy (hy b hb')
    case isFalse hxy =>
      have hyx : scoreDesc y x = true := by
        rcases scoreDesc_total x y with h | h
        · exact absurd h hxy
        · exact h
      rw [List.pairwise_cons]
      refine ⟨?_, pairwise_insertLe x ys hys⟩
      intro b hb
      rcases (mem_insertLe x b ys).mp hb with rfl | hb'
      · exact hyx
      · exact hy b hb'

theorem countP_sortLe :
    ∀ (l : List StoredRow) (p : StoredRow → Bool),
      (sortLe scoreDesc l).countP p = l.countP p
  | [], p => rfl
  | x :: xs, p => by
    simp only [sortLe, List.foldr_cons]
    rw [countP_insertLe, List.countP_cons, List.countP_cons]
    have := countP_sortLe xs p
    simp only [sortLe] at this
    rw [this]

theorem length_sortLe :
    ∀ l : List StoredRow, (sortLe scoreDesc l).length = l.length
  | [] => rfl
  | x :: xs => by
    simp only [sortLe, List.foldr_cons]
    rw [length_insertLe]
    have := length_sortLe xs
    simp only [sortLe] at this
    rw [this, List.length_cons]

theorem pairwise_sortLe :
    ∀ l : List StoredRow,
      (sortLe scoreDesc l).Pairwise (fun a b => scoreDesc a b = true)
  | [] => List.Pairwise.nil
  | x :: xs => by
    simp only [sortLe, List.foldr_cons]
    exact pairwise_insertLe x _ (by simpa only [sortLe] using pairwise_sortLe xs)

/-- In a descending-sorted candidate list holding at least `k` rows at
or above the score threshold, the first `k` rows are all at or above the
threshold. -/
theorem take_all_of_sorted (ms : Rat) :
    ∀ (l : List StoredRow) (k : Nat),
      l.Pairwise (fun a b => scoreDesc a b = true) →
      k ≤ l.countP (fun r => decide (ms ≤ r.score)) →
      ∀ x ∈ l.take k, ms ≤ x.score
  | _, 0 => by simp
  | [], k + 1 => by simp
  | a :: tl, k + 1 => by
    intro hp hc x hx
    rcases List.pairwise_cons.mp hp with ⟨ha, htl⟩
    rw [List.take_succ_cons] at hx
    by_cases hpa : ms ≤ a.score
    · rcases List.mem_cons.mp hx with rfl | hx'
      · exact hpa
      · refine take_all_of_sorted ms tl k htl ?_ x hx'
        rw [List.countP_cons, if_pos (by simpa using hpa)] at hc
        omega
    · exfalso
      have h0 : (a :: tl).countP (fun r => decide (ms ≤ r.score)) = 0 := by
        rw [List.countP_eq_zero]
        intro b hb
        rcases List.mem_cons.mp hb with rfl | hb'
        · simpa using hpa
        · have hs : b.score ≤ a.score := by simpa [scoreDesc] using ha b hb'
          simp only [decide_eq_true_eq]
          intro hmsb
          exact hpa (le_trans hmsb hs)
      omega

/-- When at least `limit` candidate rows pass the score threshold, the
`limit`-truncated ranked list survives the post-filter intact and has
exactly `limit` entries. -/
theorem sorted_take_filter (l : List StoredRow) (limit : Nat) (ms : Rat)
    (hc : limit ≤ l.countP (fun r => decide (ms ≤ r.score))) :
    ((sortLe scoreDesc l).take limit).filter (fun r => decide (ms ≤ r.score)) =
      (sortLe scoreDesc l).take limit ∧
    ((sortLe scoreDesc l).take limit).length = limit := by
  have hcount : (sortLe scoreDesc l).countP (fun r => decide (ms ≤ r.score)) =
      l.countP (fun r => decide (ms ≤ r.score)) := countP_sortLe l _
  have hall : ∀ x ∈ (sortLe scoreDesc l).take limit, ms ≤ x.score :=
    take_all_of_sorted ms (sortLe scoreDesc l) limit (pairwise_sortLe l) (by omega)
  refine ⟨List.filter_eq_self.mpr (fun a ha => by simpa using hall a ha), ?_⟩
  rw [List.length_take, length_sortLe]
  have hl : limit ≤ l.length :=
    le_trans hc (le_trans (le_of_eq rfl) (l.countP_le_length _))
  omega

/-- C2 counterexample: with twelve stored rows available and `limit = 1`,
the pg query fetches exactly one candidate row (`LIMIT limit`) — not an
order of magnitude more than `limit`. -/
theorem pg_no_oversampling_counterexample :
    exRows12.length = 12 ∧ ¬ (10 * 1 ≤ (pg_fetch exRows12 none 1).length) := by
  decide

/-- C2 (amended): the Mongo backend requests `numCandidates = 10 × limit`
in its ANN stage but caps its ranked output at `limit`, while the pg
backend requests exactly `limit` rows; both apply `min_score` as a
post-filter on the computed similarity (over a candidate list that does
not depend on `min_score`); because candidates are ranked by similarity,
whenever at least `limit` stored rows satisfy the filter with similarity
`≥ min_score`, both backends still return exactly `limit` results. -/
theorem search_post_filter_amended (table coll : List StoredRow)
    (f : Option SearchFilters) (limit : Nat) (ms : Rat)
    (hpg : limit ≤ (table.filter (pgRowMatch f)).countP (fun r => decide (ms ≤ r.score)))
    (hmg : limit ≤ (coll.filter (mongoRowMatch f)).countP (fun r => decide (ms ≤ r.score))) :
    mongo_num_candidates limit = 10 * limit ∧
    pg_search table f limit ms =
      ((pg_fetch table f limit).filter (fun r => decide (ms ≤ r.score))).map
        (fun r => ⟨r.content, r.metadata, r.score⟩) ∧
    mongo_search coll f limit ms =
      ((mongo_fetch coll f limit).filter (fun r => decide (ms ≤ r.score))).map
        (fun r => ⟨r.content, r.metadata, r.score⟩) ∧
    (pg_search table f limit ms).length = limit ∧
    (mongo_search coll f limit ms).length = limit := by
  have hpgtf := sorted_take_filter (table.filter (pgRowMatch f)) limit ms hpg
  have hmgtf := sorted_take_filter (coll.filter (mongoRowMatch f)) limit ms hmg
  refine ⟨by unfold mongo_num_candidates; omega, rfl, rfl, ?_, ?_⟩
  · unfold pg_search pg_fetch
    rw [List.length_map, hpgtf.1, hpgtf.2]
  · unfold mongo_search mongo_fetch
    rw [List.length_map, hmgtf.1, hmgtf.2]

/-- Witness for the amended C2 at a concrete input. -/
theorem search_post_filter_amended_witness :
    (1 ≤ (exRows2.filter (pgRowMatch none)).countP
      (fun r => decide ((1 : Rat) ≤ r.score))) ∧
    (1 ≤ (exRows2.filter (mongoRowMatch none)).countP
      (fun r => decide ((1 : Rat) ≤ r.score))) ∧
    (mongo_num_candidates 1 = 10 * 1 ∧
     pg_search exRows2 none 1 ((1 : Rat)) =
       ((pg_fetch exRows2 none 1).filter (fun r => decide ((1 : Rat) ≤ r.score))).map
         (fun r => ⟨r.content, r.metadata, r.score⟩) ∧
     mongo_search exRows2 none 1 ((1 : Rat)) =
       ((mongo_fetch exRows2 none 1).filter (fun r => decide ((1 : Rat) ≤ r.score))).map
         (fun r => ⟨r.content, r.metadata, r.score⟩) ∧
     (pg_search exRows2 none 1 ((1 : Rat))).length = 1 ∧
     (mongo_search exRows2 none 1 ((1 : Rat))).length = 1) :=
  ⟨by decide, by decide,
    search_post_filter_amended exRows2 exRows2 none 1 ((1 : Rat)) (by decide) (by decide)⟩

end KB
